import Mathlib

/-!
Verification of the gobag string utilities (`Fields`, `UnquoteString`,
`UnquoteStrings`) against their natural-language specification.

The Go code is shallowly embedded: a Go string is a `List Char` (the
sequence of runes the `for … range` loop visits), the `(value, error)`
return pair becomes `result × Option err`, with `[]` standing for the
`nil` slice / empty string returned on failure.
-/

namespace Gobag

/-- Scan state of `Fields`: the local variables of its loop
(`isEscaped`, `inSingle`, `inDouble`, `balance`, the string builder `sb`
and the accumulated `fields`). -/
structure ScanState where
  esc : Bool
  inSingle : Bool
  inDouble : Bool
  balance : Int
  cur : List Char
  fields : List (List Char)
  deriving Repr, DecidableEq

/-- Initial scan state of `Fields`. -/
def initState : ScanState :=
  { esc := false, inSingle := false, inDouble := false, balance := 0,
    cur := [], fields := [] }

/-- One iteration of the `Fields` loop on rune `c`.  The dispatch order
mirrors the Go `switch`: the escaped-rune branch first, then the cases
`\\`, `sep`, `"`, `'`, `(`, `)` in source order, then the default write. -/
def step (sep : Char) (st : ScanState) (c : Char) : ScanState :=
  if st.esc then
    { st with esc := false, cur := st.cur ++ [c] }
  else if c = '\\' then
    { st with esc := true }
  else if c = sep then
    if st.balance = 0 ∧ st.inSingle = false ∧ st.inDouble = false then
      { st with cur := [], fields := st.fields ++ [st.cur] }
    else
      { st with cur := st.cur ++ [c] }
  else if c = '"' then
    { st with inDouble := if st.inSingle then st.inDouble else !st.inDouble,
              cur := st.cur ++ [c] }
  else if c = '\'' then
    { st with inSingle := if st.inDouble then st.inSingle else !st.inSingle,
              cur := st.cur ++ [c] }
  else if c = '(' then
    { st with balance := if st.inSingle = false ∧ st.inDouble = false
                         then st.balance + 1 else st.balance,
              cur := st.cur ++ [c] }
  else if c = ')' then
    { st with balance := if st.inSingle = false ∧ st.inDouble = false
                         then st.balance - 1 else st.balance,
              cur := st.cur ++ [c] }
  else
    { st with cur := st.cur ++ [c] }

/-- The state of `Fields` after its loop has consumed the whole input. -/
def scanAll (s : List Char) (sep : Char) : ScanState :=
  s.foldl (step sep) initState

/-- The five error values `Fields` can return. -/
inductive FieldsErr where
  | danglingEscape
  | tooManyClosing
  | unbalancedParens
  | unbalancedSingle
  | unbalancedDouble
  deriving Repr, DecidableEq

/-- `Fields`: scan the whole input, then run the post-loop checks in
source order; on success append the pending builder only when non-empty.
`([], some e)` models Go's `return nil, err`. -/
def Fields (s : List Char) (sep : Char) : List (List Char) × Option FieldsErr :=
  if (scanAll s sep).esc then ([], some FieldsErr.danglingEscape)
  else if (scanAll s sep).balance < 0 then ([], some FieldsErr.tooManyClosing)
  else if (scanAll s sep).balance ≠ 0 then ([], some FieldsErr.unbalancedParens)
  else if (scanAll s sep).inSingle then ([], some FieldsErr.unbalancedSingle)
  else if (scanAll s sep).inDouble then ([], some FieldsErr.unbalancedDouble)
  else if (scanAll s sep).cur.isEmpty then ((scanAll s sep).fields, none)
  else ((scanAll s sep).fields ++ [(scanAll s sep).cur], none)

/-- The three error values of `UnquoteString`. -/
inductive UnquoteErr where
  | escapeOutsideQuote
  | danglingEscape
  | unterminatedQuote
  deriving Repr, DecidableEq

/-- The loop of `UnquoteString`: state is `(inQuote, escape, builder)`;
the `return "", errors.New(...)` inside the loop becomes `Except.error`. -/
def uqLoop (inQuote escape : Bool) (acc : List Char) :
    List Char → Except UnquoteErr (Bool × Bool × List Char)
  | [] => Except.ok (inQuote, escape, acc)
  | r :: rest =>
    if escape then
      uqLoop inQuote false
        (acc ++ (if r = '"' ∨ r = '\\' then [r] else ['\\', r])) rest
    else if r = '\\' then
      if inQuote then uqLoop inQuote true acc rest
      else Except.error UnquoteErr.escapeOutsideQuote
    else if r = '"' then
      uqLoop (!inQuote) escape acc rest
    else
      uqLoop inQuote escape (acc ++ [r]) rest

/-- `UnquoteString`: run the loop from the initial state, then the two
post-loop checks in source order.  `([], some e)` models `return "", err`. -/
def UnquoteString (s : List Char) : List Char × Option UnquoteErr :=
  match uqLoop false false [] s with
  | Except.error e => ([], some e)
  | Except.ok (inQuote, escape, acc) =>
    if escape then ([], some UnquoteErr.danglingEscape)
    else if inQuote then ([], some UnquoteErr.unterminatedQuote)
    else (acc, none)

/-- `UnquoteStrings`: unquote each element in order, returning
`([], some e)` as soon as one element fails (Go's early `return nil, err`). -/
def UnquoteStrings : List (List Char) → List (List Char) × Option UnquoteErr
  | [] => ([], none)
  | e :: rest =>
    match UnquoteString e with
    | (_, some er) => ([], some er)
    | (s, none) =>
      match UnquoteStrings rest with
      | (_, some er) => ([], some er)
      | (tl, none) => (s :: tl, none)

/-- Concatenation of fields with the separator reinserted between
consecutive fields. -/
def joinSep (sep : Char) : List (List Char) → List Char
  | [] => []
  | [f] => f
  | f :: g :: fs => f ++ sep :: joinSep sep (g :: fs)

/-- The input with exactly the backslashes consumed as escape markers
removed: a backslash reached with the escape flag clear is dropped (it
only sets the flag), every other character — including the character an
escape protects — is kept.  This mirrors the only characters the loop of
`Fields` does not copy into a field besides unsuppressed separators. -/
def stripEsc : Bool → List Char → List Char
  | _, [] => []
  | true, c :: rest => c :: stripEsc false rest
  | false, c :: rest =>
    if c = '\\' then stripEsc true rest else c :: stripEsc false rest

/-- The input is balanced for the scanner: its scan ends with no pending
escape, zero parenthesis balance and both quotes closed. -/
def balancedFor (s : List Char) (sep : Char) : Prop :=
  (scanAll s sep).esc = false ∧ (scanAll s sep).balance = 0 ∧
  (scanAll s sep).inSingle = false ∧ (scanAll s sep).inDouble = false

instance (s : List Char) (sep : Char) : Decidable (balancedFor s sep) := by
  unfold balancedFor; infer_instance

/-- The recovery property exactly as the specification states it:
`out` is the input with only separator characters deleted. -/
def recoversExceptSeps (out input : List Char) (sep : Char) : Prop :=
  out.Sublist input ∧
  out.filter (fun c => !(c == sep)) = input.filter (fun c => !(c == sep))

lemma joinSep_cons_ne (sep : Char) (a : List Char) (l : List (List Char))
    (h : l ≠ []) : joinSep sep (a :: l) = a ++ sep :: joinSep sep l := by
  cases l with
  | nil => exact absurd rfl h
  | cons b m => rfl

lemma joinSep_last_append (sep : Char) :
    ∀ (l : List (List Char)) (y z : List Char),
    joinSep sep (l ++ [y ++ z]) = joinSep sep (l ++ [y]) ++ z := by
  intro l
  induction l with
  | nil => intro y z; rfl
  | cons a m ih =>
    intro y z
    rw [List.cons_append, joinSep_cons_ne sep a _ (by simp),
        List.cons_append, joinSep_cons_ne sep a _ (by simp), ih]
    simp

lemma joinSep_append_nil (sep : Char) :
    ∀ (l : List (List Char)), l ≠ [] →
    joinSep sep (l ++ [[]]) = joinSep sep l ++ [sep] := by
  intro l
  induction l with
  | nil => intro h; exact absurd rfl h
  | cons a m ih =>
    intro _
    cases m with
    | nil => rfl
    | cons b m2 =>
      rw [List.cons_append, joinSep_cons_ne sep a _ (by simp),
          joinSep_cons_ne sep a _ (by simp), ih (by simp)]
      simp

/-- Every loop iteration of `Fields` either appends the rune to the
builder (clearing a set escape flag), swallows a backslash into the
escape flag, or closes the current field on an unsuppressed separator;
in the last two shapes the escape flag ends clear. -/
lemma step_shape_esc (sep : Char) (st : ScanState) (c : Char) :
    (st.esc = true ∧ (step sep st c).esc = false ∧
      (step sep st c).fields = st.fields ∧
      (step sep st c).cur = st.cur ++ [c]) ∨
    (st.esc = false ∧ c = '\\' ∧ (step sep st c).esc = true ∧
      (step sep st c).fields = st.fields ∧ (step sep st c).cur = st.cur) ∨
    (st.esc = false ∧ c ≠ '\\' ∧ (step sep st c).esc = false ∧
      (((step sep st c).fields = st.fields ∧
        (step sep st c).cur = st.cur ++ [c]) ∨
       (c = sep ∧ (step sep st c).fields = st.fields ++ [st.cur] ∧
        (step sep st c).cur = []))) := by
  unfold step
  split_ifs <;> simp_all

/-- Scan invariant: the join of the completed fields and the pending
builder — with the separator reinserted at every field boundary — is
exactly the consumed input minus the backslashes consumed as escape
markers.  Consumed separators are accounted for by the reinsertion, and
every other character (suppressed or escaped separators included) is
retained verbatim. -/
lemma scan_strip (sep : Char) :
    ∀ (s : List Char) (st : ScanState),
    joinSep sep ((s.foldl (step sep) st).fields ++
        [(s.foldl (step sep) st).cur])
      = joinSep sep (st.fields ++ [st.cur]) ++ stripEsc st.esc s := by
  intro s
  induction s with
  | nil => intro st; simp [stripEsc]
  | cons c rest ih =>
    intro st
    rw [List.foldl_cons, ih (step sep st c)]
    rcases step_shape_esc sep st c with ⟨h1, h2, h3, h4⟩ |
      ⟨h1, h2, h3, h4, h5⟩ | ⟨h1, h2, h3, h45⟩
    · rw [h3, h4, joinSep_last_append, h1, h2]
      simp [stripEsc, List.append_assoc]
    · rw [h4, h5, h3, h1, h2]
      simp [stripEsc]
    · rcases h45 with ⟨hf, hc⟩ | ⟨hcs, hf, hc⟩
      · rw [hf, hc, joinSep_last_append, h3, h1]
        simp [stripEsc, h2, List.append_assoc]
      · rw [hf, hc, joinSep_append_nil sep (st.fields ++ [st.cur]) (by simp),
          h3, h1]
        subst hcs
        simp [stripEsc, h2, List.append_assoc]

/-- C1 (counterexample): on the balanced input `a\b`, `Fields` succeeds but
returns `["ab"]`: the backslash consumed as an escape marker is not a
separator, yet it is missing from the concatenation, so the claimed
recovery of every non-delimiter character fails. -/
theorem fields_escape_loss_cex :
    balancedFor "a\\b".data ',' ∧
    Fields "a\\b".data ',' = ([['a', 'b']], none) ∧
    ¬ recoversExceptSeps (joinSep ',' (Fields "a\\b".data ',').1)
        "a\\b".data ',' := by
  refine ⟨by decide, by decide, ?_⟩
  intro h
  exact absurd h.2 (by decide)

/-- C1 (amended): for every input whose scan ends balanced (no pending
escape, zero paren balance, both quotes closed), `Fields` returns no
error, and the concatenation of the fields with the separator reinserted
between consecutive fields recovers every character of the input except
the backslashes consumed as escape markers — exactly `stripEsc false s` —
up to at most one trailing separator consumed as a final delimiter.
Suppressed separators, escaped separators and escaped backslashes are
all retained, and interior consumed delimiters are restored by the
reinsertion. -/
theorem fields_reconstruction (s : List Char) (sep : Char)
    (hb : balancedFor s sep) :
    (Fields s sep).2 = none ∧
    (joinSep sep (Fields s sep).1 = stripEsc false s ∨
     joinSep sep (Fields s sep).1 ++ [sep] = stripEsc false s) := by
  obtain ⟨he, hbal, hs, hd⟩ := hb
  have hscan := scan_strip sep s initState
  rw [show (s.foldl (step sep) initState) = scanAll s sep from rfl] at hscan
  simp only [initState, List.nil_append] at hscan
  rw [show joinSep sep [[]] = [] from rfl, List.nil_append] at hscan
  unfold Fields
  rw [he, hbal]
  norm_num
  rw [hs, hd]
  simp only [if_neg (by simp : ¬(false = true))]
  by_cases hc : (scanAll s sep).cur = []
  · simp only [hc, List.isEmpty_nil, if_pos rfl]
    rw [hc] at hscan
    by_cases hf : (scanAll s sep).fields = []
    · refine ⟨by trivial, Or.inl ?_⟩
      rw [hf] at hscan ⊢
      simpa [joinSep] using hscan
    · refine ⟨by trivial, Or.inr ?_⟩
      rw [joinSep_append_nil sep _ hf] at hscan
      exact hscan
  · simp only [if_neg (by simpa [List.isEmpty_iff] using hc)]
    exact ⟨by trivial, Or.inl hscan⟩

/-- C1 (witness): the amended reconstruction theorem at the concrete
balanced input `a,(b,c),d` with separator `,`. -/
theorem fields_reconstruction_witness :
    (Fields "a,(b,c),d".data ',').2 = none ∧
    (joinSep ',' (Fields "a,(b,c),d".data ',').1
        = stripEsc false "a,(b,c),d".data ∨
     joinSep ',' (Fields "a,(b,c),d".data ',').1 ++ [',']
        = stripEsc false "a,(b,c),d".data) :=
  fields_reconstruction "a,(b,c),d".data ',' (by decide)

/-- C2 (counterexample): processing the first character of `)(` drives the
paren counter negative, yet `Fields ")(" ','` succeeds because the later
unmatched `(` rebalances the count to zero before the deferred check. -/
theorem fields_rebalance_cex :
    (scanAll ")".data ',').balance < 0 ∧
    Fields ")(".data ',' = ([[')', '(']], none) := by
  exact ⟨by decide, by decide⟩

/-- C2 (amended): a negative paren count is fatal only when it persists to
the end of the scan: whenever the full scan ends with no pending escape
and a negative balance, `Fields` returns the too-many-closing-parentheses
error with a nil result; a transient dip rebalanced by a later `(` is not
an error. -/
theorem fields_negative_final_balance (s : List Char) (sep : Char)
    (he : (scanAll s sep).esc = false)
    (hb : (scanAll s sep).balance < 0) :
    Fields s sep = ([], some FieldsErr.tooManyClosing) := by
  unfold Fields
  rw [he]
  simp [hb]

/-- C2 (witness): the amended theorem at the concrete input `)`. -/
theorem fields_negative_final_balance_witness :
    Fields ")".data ',' = ([], some FieldsErr.tooManyClosing) :=
  fields_negative_final_balance ")".data ',' (by decide) (by decide)

/-- C3: `Fields` errors exactly when the scan ends with a pending escape,
a nonzero paren balance, or an open quote; each error value occurs exactly
under the end-state the fixed check order assigns to it (dangling escape
first, then negative parens, positive parens, open single quote, open
double quote); and every error comes with the nil field list. -/
theorem fields_error_characterization (s : List Char) (sep : Char) :
    ((Fields s sep).2 ≠ none ↔
      ((scanAll s sep).esc = true ∨ (scanAll s sep).balance ≠ 0 ∨
       (scanAll s sep).inSingle = true ∨ (scanAll s sep).inDouble = true)) ∧
    ((Fields s sep).2 = some FieldsErr.danglingEscape ↔
      (scanAll s sep).esc = true) ∧
    ((Fields s sep).2 = some FieldsErr.tooManyClosing ↔
      (scanAll s sep).esc = false ∧ (scanAll s sep).balance < 0) ∧
    ((Fields s sep).2 = some FieldsErr.unbalancedParens ↔
      (scanAll s sep).esc = false ∧ 0 < (scanAll s sep).balance) ∧
    ((Fields s sep).2 = some FieldsErr.unbalancedSingle ↔
      (scanAll s sep).esc = false ∧ (scanAll s sep).balance = 0 ∧
      (scanAll s sep).inSingle = true) ∧
    ((Fields s sep).2 = some FieldsErr.unbalancedDouble ↔
      (scanAll s sep).esc = false ∧ (scanAll s sep).balance = 0 ∧
      (scanAll s sep).inSingle = false ∧ (scanAll s sep).inDouble = true) ∧
    ((Fields s sep).2 ≠ none → (Fields s sep).1 = []) := by
  by_cases he : (scanAll s sep).esc = true
  · have hF : Fields s sep = ([], some FieldsErr.danglingEscape) := by
      simp [Fields, he]
    refine ⟨?_, ?_, ?_, ?_, ?_, ?_, ?_⟩ <;> simp [hF, he]
  · have he2 : (scanAll s sep).esc = false := by
      revert he; cases (scanAll s sep).esc <;> simp
    by_cases h1 : (scanAll s sep).balance < 0
    · have hF : Fields s sep = ([], some FieldsErr.tooManyClosing) := by
        simp [Fields, he2, h1]
      have n1 : ¬((scanAll s sep).balance = 0) := by omega
      have n2 : ¬(0 < (scanAll s sep).balance) := by omega
      refine ⟨?_, ?_, ?_, ?_, ?_, ?_, ?_⟩ <;> simp [hF, he2, h1, n1, n2]
    · by_cases h2 : (scanAll s sep).balance = 0
      · by_cases h3 : (scanAll s sep).inSingle = true
        · have hF : Fields s sep = ([], some FieldsErr.unbalancedSingle) := by
            simp [Fields, he2, h1, h2, h3]
          refine ⟨?_, ?_, ?_, ?_, ?_, ?_, ?_⟩ <;> simp [hF, he2, h2, h3]
        · have h3b : (scanAll s sep).inSingle = false := by
            revert h3; cases (scanAll s sep).inSingle <;> simp
          by_cases h4 : (scanAll s sep).inDouble = true
          · have hF : Fields s sep = ([], some FieldsErr.unbalancedDouble) := by
              simp [Fields, he2, h1, h2, h3b, h4]
            refine ⟨?_, ?_, ?_, ?_, ?_, ?_, ?_⟩ <;>
              simp [hF, he2, h2, h3b, h4]
          · have h4b : (scanAll s sep).inDouble = false := by
              revert h4; cases (scanAll s sep).inDouble <;> simp
            have hsnd : (Fields s sep).2 = none := by
              by_cases hc : (scanAll s sep).cur.isEmpty <;>
                simp [Fields, he2, h1, h2, h3b, h4b, hc]
            refine ⟨?_, ?_, ?_, ?_, ?_, ?_, ?_⟩ <;>
              simp [hsnd, he2, h2, h3b, h4b]
      · have hF : Fields s sep = ([], some FieldsErr.unbalancedParens) := by
          simp [Fields, he2, h1, h2]
        have n2 : 0 < (scanAll s sep).balance := by omega
        refine ⟨?_, ?_, ?_, ?_, ?_, ?_, ?_⟩ <;> simp [hF, he2, h1, h2, n2]

/-- C3 (witness): the characterization at the concrete input `(` with
separator `,`: the error is the unbalanced-parentheses one and the result
list is nil. -/
theorem fields_error_characterization_witness :
    (Fields "(".data ',').2 = some FieldsErr.unbalancedParens ∧
    (Fields "(".data ',').1 = [] := by
  have h := fields_error_characterization "(".data ','
  exact ⟨(h.2.2.2.1).mpr (by decide), h.2.2.2.2.2.2 (by decide)⟩

/-- C4: an unsuppressed separator (outside escapes, with the checks of the
dispatch order before it not firing) closes the current field without
being appended, a suppressed separator is copied literally, quote and
paren characters are retained in the field; and concretely
`Fields "a,\"b,c\",d" ','` is `(["a", "\"b,c\"", "d"], none)` with the
quotes present in the middle field. -/
theorem fields_separator_split :
    (∀ (sep : Char) (st : ScanState), st.esc = false → sep ≠ '\\' →
      step sep st sep =
        if st.balance = 0 ∧ st.inSingle = false ∧ st.inDouble = false then
          { st with cur := [], fields := st.fields ++ [st.cur] }
        else { st with cur := st.cur ++ [sep] }) ∧
    (∀ (sep : Char) (st : ScanState) (c : Char), st.esc = false →
      c ≠ '\\' → c ≠ sep → (c = '"' ∨ c = '\'' ∨ c = '(' ∨ c = ')') →
      (step sep st c).cur = st.cur ++ [c]) ∧
    Fields "a,\"b,c\",d".data ','
      = ([['a'], ['"', 'b', ',', 'c', '"'], ['d']], none) := by
  refine ⟨?_, ?_, by decide⟩
  · intro sep st hesc hsep
    unfold step
    rw [if_neg (by simp [hesc]), if_neg hsep, if_pos rfl]
  · intro sep st c hesc hbs hcs hq
    unfold step
    rw [if_neg (by simp [hesc]), if_neg hbs, if_neg hcs]
    rcases hq with h | h | h | h <;> subst h
    · rw [if_pos rfl]
    · rw [if_neg (by decide), if_pos rfl]
    · rw [if_neg (by decide), if_neg (by decide), if_pos rfl]
    · rw [if_neg (by decide), if_neg (by decide), if_neg (by decide),
        if_pos rfl]

/-- C4 (witness): the split rule and the retention rule applied at
concrete states. -/
theorem fields_separator_split_witness :
    step ',' initState ',' = { initState with cur := [], fields := [[]] } ∧
    (step ',' { initState with inDouble := true } '"').cur = ['"'] := by
  constructor
  · have h := fields_separator_split.1 ',' initState rfl (by decide)
    rw [h, if_pos ⟨rfl, rfl, rfl⟩]
    rfl
  · have h := fields_separator_split.2.1 ','
      { initState with inDouble := true } '"' rfl (by decide) (by decide)
      (Or.inl rfl)
    rw [h]
    rfl

/-- C5: with the escape flag set, the next rune `r` is emitted alone when
it is `"` or `\`, and as a literal `\` followed by `r` otherwise (so every
other escape sequence round-trips unchanged); an unescaped `"` only
toggles the quote flag and emits nothing; and concretely
`UnquoteString "\"foo\\\"\",\"bar\""` is `("foo\",bar", none)`. -/
theorem unquote_escape_resolution :
    (∀ (q : Bool) (acc : List Char) (r : Char) (rest : List Char),
      uqLoop q true acc (r :: rest) =
        uqLoop q false
          (acc ++ (if r = '"' ∨ r = '\\' then [r] else ['\\', r])) rest) ∧
    (∀ (q : Bool) (acc : List Char) (rest : List Char),
      uqLoop q false acc ('"' :: rest) = uqLoop (!q) false acc rest) ∧
    UnquoteString "\"foo\\\"\",\"bar\"".data = ("foo\",bar".data, none) := by
  refine ⟨fun q acc r rest => rfl, fun q acc rest => rfl, by decide⟩

/-- The loop of `UnquoteString` processes an appended list by continuing
from the state reached on the first part, short-circuiting on error. -/
lemma uqLoop_append (u : List Char) :
    ∀ (v : List Char) (q esc : Bool) (acc : List Char),
    uqLoop q esc acc (u ++ v) =
      match uqLoop q esc acc u with
      | Except.error e => Except.error e
      | Except.ok (q2, esc2, acc2) => uqLoop q2 esc2 acc2 v := by
  induction u with
  | nil => intro v q esc acc; rfl
  | cons r rest ih =>
    intro v q esc acc
    simp only [List.cons_append, uqLoop]
    split_ifs <;> first | rfl | apply ih

lemma uqLoop_cons_esc (q : Bool) (acc : List Char) (r : Char)
    (rest : List Char) :
    uqLoop q true acc (r :: rest) =
      uqLoop q false
        (acc ++ (if r = '"' ∨ r = '\\' then [r] else ['\\', r])) rest := rfl

lemma uqLoop_cons_bs_in (acc : List Char) (rest : List Char) :
    uqLoop true false acc ('\\' :: rest) = uqLoop true true acc rest := rfl

lemma uqLoop_cons_bs_out (acc : List Char) (rest : List Char) :
    uqLoop false false acc ('\\' :: rest)
      = Except.error UnquoteErr.escapeOutsideQuote := rfl

lemma uqLoop_cons_quote (q : Bool) (acc : List Char) (rest : List Char) :
    uqLoop q false acc ('"' :: rest) = uqLoop (!q) false acc rest := rfl

lemma uqLoop_cons_other (q : Bool) (acc : List Char) (r : Char)
    (rest : List Char) (h1 : r ≠ '\\') (h2 : r ≠ '"') :
    uqLoop q false acc (r :: rest) = uqLoop q false (acc ++ [r]) rest := by
  simp only [uqLoop]
  rw [if_neg (by simp), if_neg h1, if_neg h2]

/-- The loop of `UnquoteString` can only fail with the outside-quote
error, and only at a backslash reached with the quote and escape flags
both clear. -/
lemma uqLoop_error_sound :
    ∀ (s : List Char) (q esc : Bool) (acc : List Char) (e : UnquoteErr),
    uqLoop q esc acc s = Except.error e →
    e = UnquoteErr.escapeOutsideQuote ∧
    ∃ u v acc2, s = u ++ '\\' :: v ∧
      uqLoop q esc acc u = Except.ok (false, false, acc2) := by
  intro s
  induction s with
  | nil =>
    intro q esc acc e h
    exact absurd h (by simp [uqLoop])
  | cons r rest ih =>
    intro q esc acc e h
    by_cases h1 : esc = true
    · subst h1
      rw [uqLoop_cons_esc] at h
      obtain ⟨hee, u, v, acc2, hs, hu⟩ := ih q false _ e h
      exact ⟨hee, r :: u, v, acc2, by rw [hs, List.cons_append],
        by rw [uqLoop_cons_esc]; exact hu⟩
    · have h1b : esc = false := by revert h1; cases esc <;> simp
      subst h1b
      by_cases h2 : r = '\\'
      · subst h2
        by_cases h3 : q = true
        · subst h3
          rw [uqLoop_cons_bs_in] at h
          obtain ⟨hee, u, v, acc2, hs, hu⟩ := ih true true acc e h
          exact ⟨hee, '\\' :: u, v, acc2, by rw [hs, List.cons_append],
            by rw [uqLoop_cons_bs_in]; exact hu⟩
        · have h3b : q = false := by revert h3; cases q <;> simp
          subst h3b
          rw [uqLoop_cons_bs_out] at h
          refine ⟨?_, [], rest, acc, rfl, rfl⟩
          injection h with h5
          exact h5.symm
      · by_cases h4 : r = '"'
        · subst h4
          rw [uqLoop_cons_quote] at h
          obtain ⟨hee, u, v, acc2, hs, hu⟩ := ih (!q) false acc e h
          exact ⟨hee, '"' :: u, v, acc2, by rw [hs, List.cons_append],
            by rw [uqLoop_cons_quote]; exact hu⟩
        · rw [uqLoop_cons_other q acc r rest h2 h4] at h
          obtain ⟨hee, u, v, acc2, hs, hu⟩ := ih q false (acc ++ [r]) e h
          exact ⟨hee, r :: u, v, acc2, by rw [hs, List.cons_append],
            by rw [uqLoop_cons_other q acc r u h2 h4]; exact hu⟩

/-- Reaching a backslash with the quote and escape flags clear makes the
loop of `UnquoteString` fail with the outside-quote error. -/
lemma uqLoop_error_of_split (u v acc2 : List Char) (q esc : Bool)
    (acc : List Char)
    (h : uqLoop q esc acc u = Except.ok (false, false, acc2)) :
    uqLoop q esc acc (u ++ '\\' :: v)
      = Except.error UnquoteErr.escapeOutsideQuote := by
  rw [uqLoop_append u ('\\' :: v) q esc acc, h]
  rfl

/-- C6: `UnquoteString` errors exactly when a backslash is reached with
the quote (and escape) flags clear, or the escape flag is still set after
the last character, or a quote is still open after the last character;
and every error comes with the empty-string result. -/
theorem unquoteString_error_iff (s : List Char) :
    ((UnquoteString s).2 ≠ none ↔
      ((∃ u v acc, s = u ++ '\\' :: v ∧
          uqLoop false false [] u = Except.ok (false, false, acc)) ∨
       (∃ q acc, uqLoop false false [] s = Except.ok (q, true, acc)) ∨
       (∃ acc, uqLoop false false [] s = Except.ok (true, false, acc)))) ∧
    ((UnquoteString s).2 ≠ none → (UnquoteString s).1 = []) := by
  cases h : uqLoop false false [] s with
  | error e =>
    obtain ⟨hee, u, v, acc2, hs, hu⟩ :=
      uqLoop_error_sound s false false [] e h
    refine ⟨⟨fun _ => Or.inl ⟨u, v, acc2, hs, hu⟩, fun _ => ?_⟩,
      fun _ => ?_⟩
    · simp [UnquoteString, h]
    · simp [UnquoteString, h]
  | ok t =>
    obtain ⟨q, esc, acc⟩ := t
    have hnosplit : ¬∃ u v acc2, s = u ++ '\\' :: v ∧
        uqLoop false false [] u = Except.ok (false, false, acc2) := by
      rintro ⟨u, v, acc2, hs, hu⟩
      rw [hs, uqLoop_error_of_split u v acc2 false false [] hu] at h
      exact absurd h (by simp)
    by_cases hesc : esc = true
    · subst hesc
      refine ⟨⟨fun _ => Or.inr (Or.inl ⟨q, acc, rfl⟩), fun _ => ?_⟩,
        fun _ => ?_⟩
      · simp [UnquoteString, h]
      · simp [UnquoteString, h]
    · have hesc2 : esc = false := by revert hesc; cases esc <;> simp
      subst hesc2
      by_cases hq : q = true
      · subst hq
        refine ⟨⟨fun _ => Or.inr (Or.inr ⟨acc, rfl⟩), fun _ => ?_⟩,
          fun _ => ?_⟩
        · simp [UnquoteString, h]
        · simp [UnquoteString, h]
      · have hq2 : q = false := by revert hq; cases q <;> simp
        subst hq2
        have hok : UnquoteString s = (acc, none) := by
          simp [UnquoteString, h]
        constructor
        · constructor
          · intro hcontra
            rw [hok] at hcontra
            exact absurd rfl hcontra
          · rintro (hA | ⟨q2, acc2, hB⟩ | ⟨acc2, hC⟩)
            · exact absurd hA hnosplit
            · simp at hB
            · simp at hC
        · intro hcontra
          rw [hok] at hcontra
          exact absurd rfl hcontra

/-- C6 (witness): the characterization at the concrete input `\`: the
call errors (outside-quote backslash at position 0) and returns the empty
string. -/
theorem unquoteString_error_iff_witness :
    (UnquoteString ['\\']).2 ≠ none ∧ (UnquoteString ['\\']).1 = [] := by
  have h := unquoteString_error_iff ['\\']
  exact ⟨h.1.mpr (Or.inl ⟨[], [], [], rfl, rfl⟩), h.2 (by decide)⟩

/-- C7: `UnquoteStrings` unquotes the elements independently in order:
when every element succeeds it returns the per-element results in order
(same length, by `map`), and when some element fails — the prefix before
it succeeding — it returns that first failing element's error unchanged
with the nil result, discarding all partial results. -/
theorem unquoteStrings_atomic (elems : List (List Char)) :
    ((∀ e ∈ elems, (UnquoteString e).2 = none) →
      UnquoteStrings elems
        = (elems.map (fun e => (UnquoteString e).1), none)) ∧
    (∀ (pre : List (List Char)) (bad : List Char)
        (rest : List (List Char)) (er : UnquoteErr),
      elems = pre ++ bad :: rest →
      (∀ e ∈ pre, (UnquoteString e).2 = none) →
      (UnquoteString bad).2 = some er →
      UnquoteStrings elems = ([], some er)) := by
  constructor
  · induction elems with
    | nil => intro _; rfl
    | cons e rest ih =>
      intro h
      have he : (UnquoteString e).2 = none := h e (by simp)
      rcases hq : UnquoteString e with ⟨s0, o⟩
      rw [hq] at he
      simp only at he
      subst he
      have hr := ih (fun x hx => h x (by simp [hx]))
      simp only [UnquoteStrings, hq, hr, List.map_cons]
  · intro pre
    induction pre generalizing elems with
    | nil =>
      intro bad rest er helems _ hbad
      subst helems
      rcases hq : UnquoteString bad with ⟨s0, o⟩
      rw [hq] at hbad
      simp only at hbad
      subst hbad
      simp only [List.nil_append, UnquoteStrings, hq]
    | cons p pre2 ih =>
      intro bad rest er helems hpre hbad
      subst helems
      have hp : (UnquoteString p).2 = none := hpre p (by simp)
      rcases hq : UnquoteString p with ⟨s0, o⟩
      rw [hq] at hp
      simp only at hp
      subst hp
      have hr := ih (pre2 ++ bad :: rest) bad rest er rfl
        (fun x hx => hpre x (by simp [hx])) hbad
      simp only [List.cons_append, UnquoteStrings, List.append_eq, hq, hr]

/-- C7 (witness): the all-success case on `["a"]` and the atomic-failure
case on `["a", "\\"]` (second element fails outside a quote). -/
theorem unquoteStrings_atomic_witness :
    UnquoteStrings [['a']] = ([['a']], none) ∧
    UnquoteStrings [['a'], ['\\']]
      = ([], some UnquoteErr.escapeOutsideQuote) := by
  constructor
  · exact (unquoteStrings_atomic [['a']]).1 (by decide)
  · exact (unquoteStrings_atomic [['a'], ['\\']]).2 [['a']] ['\\'] []
      UnquoteErr.escapeOutsideQuote rfl (by decide) (by decide)

/-- C8: after a successful scan the pending builder is appended only when
non-empty: the empty input yields the empty list (not `[""]`), the
general success result is the completed fields plus the builder only if
non-empty, an input ending in an unsuppressed separator (`"a,"`) yields
no trailing empty field, and interior empty fields (`"a,,b"`) are kept. -/
theorem fields_trailing_field :
    (∀ sep : Char, Fields [] sep = ([], none)) ∧
    (∀ (s : List Char) (sep : Char), (Fields s sep).2 = none →
      (Fields s sep).1 = (scanAll s sep).fields ++
        (if (scanAll s sep).cur = [] then [] else [(scanAll s sep).cur])) ∧
    Fields "a,".data ',' = ([['a']], none) ∧
    Fields "a,,b".data ',' = ([['a'], [], ['b']], none) := by
  refine ⟨fun sep => rfl, ?_, by decide, by decide⟩
  intro s sep h
  unfold Fields at h ⊢
  split_ifs at h ⊢ with h1 h2 h3 h4 h5 h6
  · simp
  · rename_i hc
    exact absurd (List.isEmpty_iff.mp h6) hc
  · rename_i hc
    exact absurd (List.isEmpty_iff.mpr hc) h6
  · simp

/-- C8 (witness): the trailing-field rule applied to the concrete
successful call on `"a,"`. -/
theorem fields_trailing_field_witness :
    (Fields "a,".data ',').1 = (scanAll "a,".data ',').fields ++
      (if (scanAll "a,".data ',').cur = [] then []
       else [(scanAll "a,".data ',').cur]) :=
  fields_trailing_field.2.1 "a,".data ',' (by decide)

/-- The loop of `Fields` never makes both quote flags true. -/
lemma step_quotes (sep : Char) (st : ScanState) (c : Char)
    (h : st.inSingle = false ∨ st.inDouble = false) :
    (step sep st c).inSingle = false ∨ (step sep st c).inDouble = false := by
  unfold step
  split_ifs <;> simp_all

lemma scan_quotes (sep : Char) :
    ∀ (s : List Char) (st : ScanState),
    st.inSingle = false ∨ st.inDouble = false →
    (s.foldl (step sep) st).inSingle = false ∨
    (s.foldl (step sep) st).inDouble = false := by
  intro s
  induction s with
  | nil => intro st h; simpa using h
  | cons c rest ih =>
    intro st h
    simpa [List.foldl] using ih (step sep st c) (step_quotes sep st c h)

/-- C9: at every point of every scan the two quote flags are never both
set, and a quote character of one kind reached while the other kind is
open changes no flag and is copied literally into the current field. -/
theorem fields_quotes_exclusive :
    (∀ (sep : Char) (s : List Char),
      ¬((scanAll s sep).inSingle = true ∧ (scanAll s sep).inDouble = true)) ∧
    (∀ (sep : Char) (st : ScanState), st.esc = false → st.inSingle = true →
      step sep st '"' = { st with cur := st.cur ++ ['"'] }) ∧
    (∀ (sep : Char) (st : ScanState), st.esc = false → st.inDouble = true →
      step sep st '\'' = { st with cur := st.cur ++ ['\''] }) := by
  refine ⟨?_, ?_, ?_⟩
  · intro sep s
    have h := scan_quotes sep s initState (Or.inl rfl)
    rcases h with h | h <;> simp [scanAll, h]
  · intro sep st he hs
    unfold step
    rw [if_neg (by simp [he]), if_neg (by decide)]
    by_cases hsep : ('"' : Char) = sep
    · rw [if_pos hsep, if_neg (by simp [hs])]
    · rw [if_neg hsep, if_pos rfl, hs]
      rfl
  · intro sep st he hd
    unfold step
    rw [if_neg (by simp [he]), if_neg (by decide)]
    by_cases hsep : ('\'' : Char) = sep
    · rw [if_pos hsep, if_neg (by simp [hd])]
    · rw [if_neg hsep, if_neg (by decide), if_pos rfl, hd]
      rfl

/-- C9 (witness): the inertness of the other quote kind at concrete
states with one quote open. -/
theorem fields_quotes_exclusive_witness :
    step ',' { initState with inSingle := true } '"'
      = { initState with inSingle := true, cur := ['"'] } ∧
    step ',' { initState with inDouble := true } '\''
      = { initState with inDouble := true, cur := ['\''] } := by
  constructor
  · have h := fields_quotes_exclusive.2.1 ','
      { initState with inSingle := true } rfl rfl
    rw [h]
    rfl
  · have h := fields_quotes_exclusive.2.2 ','
      { initState with inDouble := true } rfl rfl
    rw [h]
    rfl

/-- On quote-free, backslash-free input the loop of `UnquoteString` just
copies every character. -/
lemma uqLoop_plain :
    ∀ (s : List Char) (q : Bool) (acc : List Char),
    (∀ c ∈ s, c ≠ '"' ∧ c ≠ '\\') →
    uqLoop q false acc s = Except.ok (q, false, acc ++ s) := by
  intro s
  induction s with
  | nil =>
    intro q acc _
    simp [uqLoop]
  | cons r rest ih =>
    intro q acc h
    have hr := h r (by simp)
    rw [uqLoop_cons_other q acc r rest hr.2 hr.1,
      ih q (acc ++ [r]) (fun c hc => h c (by simp [hc]))]
    simp

/-- C10: `UnquoteString` is the identity (with no error) on every string
containing neither a double quote nor a backslash. -/
theorem unquoteString_identity (s : List Char)
    (h : ∀ c ∈ s, c ≠ '"' ∧ c ≠ '\\') :
    UnquoteString s = (s, none) := by
  unfold UnquoteString
  rw [uqLoop_plain s false [] h]
  simp

/-- C10 (witness): the identity at the concrete quote-free input `abc`. -/
theorem unquoteString_identity_witness :
    UnquoteString "abc".data = ("abc".data, none) :=
  unquoteString_identity "abc".data (by decide)

end Gobag
